import Mathlib

/-!
Shallow embedding of `src/interfaces/sourcegen/sourcegen/_helpers.py`.

Strings are modelled as `List Char`; lines are separated by the newline
character (the other, exotic line-break characters accepted by Python's
`str.splitlines` play no role in this file's inputs and are not modelled).
The caller's source line, which the Python code obtains via
`inspect.stack()[1].code_context[0]`, is passed to `normalize_indent` as an
explicit argument.  An out-of-range string index (Python `IndexError`) is
modelled by returning `none`.
-/

namespace Helpers

/-- The ASCII whitespace characters recognised by Python's `str.strip` and
`str.lstrip`: space, tab, newline, carriage return, vertical tab, form feed. -/
def isPyWs (c : Char) : Bool :=
  c == ' ' || c == '\t' || c == '\n' || c == '\r' ||
    c == Char.ofNat 11 || c == Char.ofNat 12

/-- Python `str.lstrip()`: remove leading whitespace. -/
def lstrip (s : List Char) : List Char := s.dropWhile isPyWs

/-- Python `str.rstrip()`: remove trailing whitespace. -/
def rstrip (s : List Char) : List Char := (s.reverse.dropWhile isPyWs).reverse

/-- Python `str.strip()`: remove leading and trailing whitespace. -/
def strip (s : List Char) : List Char := rstrip (lstrip s)

/-- The indentation characters considered by `textwrap.dedent` (regexes
`^[ \t]+$` and `^[ \t]*`): space and tab. -/
def isIndentChar (c : Char) : Bool := c == ' ' || c == '\t'

/-- Python `text.split(chr(10))`: split at every newline; the result always has
at least one (possibly empty) element. -/
def splitNl : List Char → List (List Char)
  | [] => [[]]
  | c :: cs =>
    if c = '\n' then [] :: splitNl cs
    else
      match splitNl cs with
      | [] => [[c]]
      | l :: ls => (c :: l) :: ls

/-- Inverse of `splitNl`: join lines with a newline between consecutive ones. -/
def joinNl : List (List Char) → List Char
  | [] => []
  | [l] => l
  | l :: ls => l ++ '\n' :: joinNl ls

/-- `textwrap.dedent` first replaces every line consisting solely of spaces and
tabs by an empty line (`_whitespace_only_re.sub(chr(39)*0, text)` with pattern
`^[ \t]+$`); an already empty line is left empty, so the two cases coincide. -/
def blankToEmpty (l : List Char) : List Char := if l.all isIndentChar then [] else l

/-- Longest common prefix of two character lists; `textwrap.dedent`'s margin
loop keeps exactly the common prefix of the indents seen so far. -/
def lcp : List Char → List Char → List Char
  | a :: as, b :: bs => if a = b then a :: lcp as bs else []
  | _, _ => []

/-- The margin `textwrap.dedent` strips: the longest common prefix of the
leading space-and-tab runs of all lines that still have content after
whitespace-only lines were emptied (`_leading_whitespace_re.findall`).  With no
content line Python keeps `margin = None` and strips nothing, which is the same
as the empty margin. -/
def marginOf (ls : List (List Char)) : List Char :=
  match (ls.filter (fun l => !l.isEmpty)).map (fun l => l.takeWhile isIndentChar) with
  | [] => []
  | i :: is => is.foldl lcp i

/-- `textwrap.dedent(text)`: empty the whitespace-only lines, compute the
common margin of the remaining lines, and remove it from every line that
starts with it (`re.sub` anchored at line starts). -/
def dedent (s : List Char) : List Char :=
  let ls := (splitNl s).map blankToEmpty
  let m := marginOf ls
  joinNl (ls.map (fun l => if l.take m.length = m then l.drop m.length else l))

/-- `textwrap.indent(text, pre)` with the default predicate: put `pre` before
every line whose content is more than whitespace (`line.strip()` non-empty);
keepends splitting and rejoining reduce to this form on newline-separated
text. -/
def indent (s : List Char) (pre : List Char) : List Char :=
  joinNl ((splitNl s).map (fun l => if (strip l).isEmpty then l else pre ++ l))

/-- The indentation of the caller's line:
`len(call_line) - len(call_line.lstrip())`. -/
def indentPos (call_line : List Char) : Nat :=
  call_line.length - (lstrip call_line).length

/-- `normalize_indent(code)` with the caller's source line made explicit.
Dedent and strip the block; if the caller line's character at the computed
indentation position is an opening brace, indent every line by that many
spaces and then drop that many characters from the front of the result;
otherwise return the dedented, stripped block.  Indexing the caller line out
of range (a whitespace-only caller line) is Python's `IndexError`, modelled as
`none`. -/
def normalize_indent (code call_line : List Char) : Option (List Char) :=
  let c := strip (dedent code)
  let ind := indentPos call_line
  if ind < call_line.length then
    if call_line.getD ind ' ' = '{' then
      some ((indent c (List.replicate ind ' ')).drop ind)
    else
      some c
  else
    none

/-- The ambient file system, as a map from paths (lists of path segments) to
file contents; `none` is a missing file. -/
structure FileSystem where
  read : List String → Option String

/-- `get_preamble()`: read `preamble.txt` next to the module
(`Path(__file__).parent.joinpath("preamble.txt").read_text()`).  The module's
directory and the file system are made explicit; a missing file raises
`FileNotFoundError`, modelled as `Except.error`. -/
def get_preamble (fs : FileSystem) (moduleDir : List String) : Except String String :=
  match fs.read (moduleDir ++ ["preamble.txt"]) with
  | some txt => Except.ok txt
  | none => Except.error "FileNotFoundError"

/-! ### Basic lemmas about line splitting and joining -/

/-- What a newline-joined list of lines contributes after its first line. -/
def nlJoin (ls : List (List Char)) : List Char :=
  match ls with
  | [] => []
  | _ => '\n' :: joinNl ls

theorem joinNl_cons (x : List Char) (xs : List (List Char)) :
    joinNl (x :: xs) = x ++ nlJoin xs := by
  cases xs <;> simp [joinNl, nlJoin]

theorem splitNl_ne_nil (s : List Char) : splitNl s ≠ [] := by
  cases s with
  | nil => simp [splitNl]
  | cons c cs =>
    unfold splitNl
    split
    · simp
    · cases h : splitNl cs <;> simp

theorem splitNl_cons_of_ne (c : Char) (cs : List Char) (hc : ¬ c = '\n') :
    ∃ l ls, splitNl cs = l :: ls ∧ splitNl (c :: cs) = (c :: l) :: ls := by
  cases h : splitNl cs with
  | nil => exact absurd h (splitNl_ne_nil cs)
  | cons l ls =>
    refine ⟨l, ls, rfl, ?_⟩
    unfold splitNl
    rw [if_neg hc, h]

theorem splitNl_nl_cons (cs : List Char) : splitNl ('\n' :: cs) = [] :: splitNl cs := by
  conv_lhs => rw [splitNl]
  rw [if_pos rfl]

theorem joinNl_splitNl (s : List Char) : joinNl (splitNl s) = s := by
  induction s with
  | nil => simp [splitNl, joinNl]
  | cons c cs ih =>
    by_cases hc : c = '\n'
    · subst hc
      rw [splitNl_nl_cons, joinNl_cons]
      cases hs : splitNl cs with
      | nil => exact absurd hs (splitNl_ne_nil cs)
      | cons l ls =>
        simp only [nlJoin, List.nil_append]
        rw [← hs, ih]
    · obtain ⟨l, ls, hcs, hs⟩ := splitNl_cons_of_ne c cs hc
      rw [hs, joinNl_cons, List.cons_append, ← joinNl_cons, ← hcs, ih]

theorem not_nl_mem_splitNl (s : List Char) : ∀ l ∈ splitNl s, '\n' ∉ l := by
  induction s with
  | nil => intro l hl; simp [splitNl] at hl; simp [hl]
  | cons c cs ih =>
    by_cases hc : c = '\n'
    · subst hc
      rw [splitNl_nl_cons]
      intro l hl
      rcases List.mem_cons.mp hl with h1 | h2
      · simp [h1]
      · exact ih l h2
    · obtain ⟨l0, ls, hcs, hs⟩ := splitNl_cons_of_ne c cs hc
      rw [hs]
      intro l hl
      rcases List.mem_cons.mp hl with h1 | h2
      · subst h1
        intro hmem
        rcases List.mem_cons.mp hmem with h3 | h4
        · exact hc h3.symm
        · exact ih l0 (hcs ▸ List.mem_cons_self l0 ls) h4
      · exact ih l (by rw [hcs]; exact List.mem_cons_of_mem l0 h2)

theorem splitNl_no_nl (l : List Char) (h : '\n' ∉ l) : splitNl l = [l] := by
  induction l with
  | nil => simp [splitNl]
  | cons c cs ih =>
    have hc : ¬ c = '\n' := fun hh => h (hh ▸ List.mem_cons_self c cs)
    obtain ⟨l0, ls, hcs, hs⟩ := splitNl_cons_of_ne c cs hc
    rw [ih (fun hm => h (List.mem_cons_of_mem c hm))] at hcs
    injection hcs with h1 h2
    subst h1; subst h2
    exact hs

theorem splitNl_append_nl (x r : List Char) (h : '\n' ∉ x) :
    splitNl (x ++ '\n' :: r) = x :: splitNl r := by
  induction x with
  | nil => simpa using splitNl_nl_cons r
  | cons c cs ih =>
    have hc : ¬ c = '\n' := fun hh => h (hh ▸ List.mem_cons_self c cs)
    have ih2 := ih (fun hm => h (List.mem_cons_of_mem c hm))
    obtain ⟨l0, ls, hcs, hs⟩ := splitNl_cons_of_ne c (cs ++ '\n' :: r) hc
    rw [ih2] at hcs
    injection hcs with h1 h2
    subst h1; subst h2
    exact hs

theorem splitNl_joinNl (ls : List (List Char)) (hne : ls ≠ [])
    (h : ∀ l ∈ ls, '\n' ∉ l) : splitNl (joinNl ls) = ls := by
  induction ls with
  | nil => exact absurd rfl hne
  | cons x xs ih =>
    cases xs with
    | nil => exact splitNl_no_nl x (h x (List.mem_cons_self x []))
    | cons y ys =>
      have hx : '\n' ∉ x := h x (List.mem_cons_self _ _)
      have hj : joinNl (x :: y :: ys) = x ++ '\n' :: joinNl (y :: ys) := rfl
      rw [hj, splitNl_append_nl x _ hx,
        ih (by simp) (fun l hl => h l (List.mem_cons_of_mem x hl))]

/-! ### Lemmas about stripping whitespace -/

theorem dropWhile_head_false (p : Char → Bool) (s : List Char) (c : Char) (t : List Char)
    (h : s.dropWhile p = c :: t) : p c = false := by
  induction s with
  | nil => simp [List.dropWhile] at h
  | cons a as ih =>
    rw [List.dropWhile_cons] at h
    split at h
    · exact ih h
    · rename_i hpa
      injection h with h1 _
      subst h1
      exact Bool.eq_false_iff.mpr hpa

theorem lstrip_head_not_ws (s : List Char) (c : Char) (t : List Char)
    (h : lstrip s = c :: t) : isPyWs c = false :=
  dropWhile_head_false isPyWs s c t h

theorem rstrip_getLast_not_ws (s : List Char) (c : Char)
    (h : (rstrip s).getLast? = some c) : isPyWs c = false := by
  unfold rstrip at h
  rw [List.getLast?_reverse] at h
  cases hd : s.reverse.dropWhile isPyWs with
  | nil => rw [hd] at h; simp at h
  | cons a t =>
    rw [hd] at h
    simp only [List.head?_cons, Option.some.injEq] at h
    exact h ▸ dropWhile_head_false isPyWs s.reverse a t hd

theorem rstrip_isPrefix (s : List Char) : ∃ t, rstrip s ++ t = s := by
  obtain ⟨t, ht⟩ := List.dropWhile_suffix (l := s.reverse) isPyWs
  refine ⟨t.reverse, ?_⟩
  unfold rstrip
  simpa using congrArg List.reverse ht

theorem rstrip_head (s : List Char) (c : Char) (t : List Char)
    (h : rstrip s = c :: t) : ∃ r, s = c :: r := by
  obtain ⟨u, hu⟩ := rstrip_isPrefix s
  rw [h] at hu
  exact ⟨t ++ u, by rw [← hu]; simp⟩

theorem strip_head_not_ws (s : List Char) (c : Char) (t : List Char)
    (h : strip s = c :: t) : isPyWs c = false := by
  unfold strip at h
  obtain ⟨r, hr⟩ := rstrip_head (lstrip s) c t h
  exact lstrip_head_not_ws s c r hr

theorem strip_getLast_not_ws (s : List Char) (c : Char)
    (h : (strip s).getLast? = some c) : isPyWs c = false :=
  rstrip_getLast_not_ws (lstrip s) c h

theorem strip_cons_ne_nil (b : Char) (l : List Char) (hb : isPyWs b = false) :
    strip (b :: l) ≠ [] := by
  unfold strip lstrip
  rw [List.dropWhile_cons, if_neg (by simp [hb])]
  unfold rstrip
  intro h
  have h2 : (b :: l).reverse.dropWhile isPyWs = [] := by
    simpa using congrArg List.reverse h
  have h3 := List.dropWhile_eq_nil_iff.mp h2 b (by simp)
  rw [hb] at h3
  exact Bool.false_ne_true h3

/-! ### The opening-brace branch: indent by n spaces, then drop n characters -/

theorem drop_replicate_append (n : Nat) (a : Char) (l : List Char) :
    (List.replicate n a ++ l).drop n = l := by
  have h := List.drop_left (List.replicate n a) l
  rwa [List.length_replicate] at h

/-- The per-line transformation `textwrap.indent(·, n * chr(32))` applies. -/
def padLine (n : Nat) (l : List Char) : List Char :=
  if (strip l).isEmpty then l else List.replicate n ' ' ++ l

theorem indent_replicate_eq (base : List Char) (n : Nat) :
    indent base (List.replicate n ' ') = joinNl ((splitNl base).map (padLine n)) := rfl

theorem strip_nil : strip ([] : List Char) = [] := rfl

theorem padLine_drop_head (base : List Char) (n : Nat) (b0 : List Char)
    (bs : List (List Char))
    (hh : ∀ c t, base = c :: t → isPyWs c = false)
    (hsplit : splitNl base = b0 :: bs) :
    (padLine n b0).drop n = b0 := by
  cases base with
  | nil =>
    have h0 : splitNl ([] : List Char) = [[]] := rfl
    rw [h0] at hsplit
    injection hsplit with h1 h2
    subst h1
    simp [padLine, strip_nil]
  | cons b t =>
    have hb : isPyWs b = false := hh b t rfl
    have hbn : ¬ b = '\n' := by
      intro he; rw [he] at hb; exact absurd hb (by decide)
    obtain ⟨l, ls, hts, hbs⟩ := splitNl_cons_of_ne b t hbn
    rw [hbs] at hsplit
    injection hsplit with h1 h2
    subst h1
    have hne := strip_cons_ne_nil b l hb
    unfold padLine
    rw [if_neg (by simpa using hne), drop_replicate_append]

theorem brace_drop_eq (base : List Char) (n : Nat) (b0 : List Char)
    (bs : List (List Char))
    (hh : ∀ c t, base = c :: t → isPyWs c = false)
    (hsplit : splitNl base = b0 :: bs) :
    (indent base (List.replicate n ' ')).drop n = joinNl (b0 :: bs.map (padLine n)) := by
  cases base with
  | nil =>
    have h0 : splitNl ([] : List Char) = [[]] := rfl
    rw [h0] at hsplit
    injection hsplit with h1 h2
    subst h1; subst h2
    simp [indent_replicate_eq, h0, padLine, strip_nil, joinNl]
  | cons b t =>
    have hb : isPyWs b = false := hh b t rfl
    have hbn : ¬ b = '\n' := by
      intro he; rw [he] at hb; exact absurd hb (by decide)
    obtain ⟨l, ls, hts, hbs⟩ := splitNl_cons_of_ne b t hbn
    rw [hbs] at hsplit
    injection hsplit with h1 h2
    subst h1; subst h2
    have hne := strip_cons_ne_nil b l hb
    have hpl : padLine n (b :: l) = List.replicate n ' ' ++ (b :: l) := by
      unfold padLine
      rw [if_neg (by simpa using hne)]
    rw [indent_replicate_eq, hbs, List.map_cons, hpl, joinNl_cons, List.append_assoc,
      drop_replicate_append, ← joinNl_cons]

theorem brace_drop_splitNl (base : List Char) (n : Nat) (b0 : List Char)
    (bs : List (List Char))
    (hh : ∀ c t, base = c :: t → isPyWs c = false)
    (hsplit : splitNl base = b0 :: bs) :
    splitNl ((indent base (List.replicate n ' ')).drop n) = b0 :: bs.map (padLine n) := by
  rw [brace_drop_eq base n b0 bs hh hsplit]
  apply splitNl_joinNl _ (by simp)
  intro l hl
  rcases List.mem_cons.mp hl with h1 | h2
  · subst h1
    exact not_nl_mem_splitNl base l (by rw [hsplit]; exact List.mem_cons_self _ _)
  · obtain ⟨l0, hl0, rfl⟩ := List.mem_map.mp h2
    have hnn := not_nl_mem_splitNl base l0
      (by rw [hsplit]; exact List.mem_cons_of_mem _ hl0)
    unfold padLine
    split
    · exact hnn
    · intro hmem
      rcases List.mem_append.mp hmem with ha | hb2
      · rw [List.mem_replicate] at ha
        exact absurd ha.2 (by decide)
      · exact hnn hb2

/-! ### Last-character lemmas -/

theorem getLast?_cons_ne_nil {α : Type} (x : α) (ys : List α) (h : ys ≠ []) :
    (x :: ys).getLast? = ys.getLast? := by
  cases ys with
  | nil => exact absurd rfl h
  | cons y ys => exact List.getLast?_cons_cons

theorem getLast?_cons_ne_none {α : Type} (a : α) (as : List α) :
    (a :: as).getLast? ≠ none := by
  induction as generalizing a with
  | nil => simp
  | cons b bs ih =>
    rw [List.getLast?_cons_cons]
    exact ih b

theorem joinNl_getLast? (ls : List (List Char)) (l : List Char)
    (hlast : ls.getLast? = some l) (hne : l ≠ []) :
    (joinNl ls).getLast? = l.getLast? := by
  induction ls with
  | nil => simp at hlast
  | cons x xs ih =>
    cases xs with
    | nil =>
      simp only [List.getLast?_singleton, Option.some.injEq] at hlast
      subst hlast
      rfl
    | cons y ys =>
      rw [List.getLast?_cons_cons] at hlast
      have ihh := ih hlast
      have hj : joinNl (x :: y :: ys) = x ++ '\n' :: joinNl (y :: ys) := rfl
      rw [hj, List.getLast?_append_of_ne_nil x (by simp)]
      have hjne : joinNl (y :: ys) ≠ [] := by
        intro hempty
        rw [hempty] at ihh
        cases l with
        | nil => exact hne rfl
        | cons a as => exact getLast?_cons_ne_none a as ihh.symm
      rw [getLast?_cons_ne_nil '\n' _ hjne]
      exact ihh

theorem splitNl_getLast (s : List Char) (c : Char)
    (hc : s.getLast? = some c) (hnl : ¬ c = '\n') :
    ∃ l, (splitNl s).getLast? = some l ∧ l.getLast? = some c := by
  induction s with
  | nil => simp at hc
  | cons a as ih =>
    cases as with
    | nil =>
      simp only [List.getLast?_singleton, Option.some.injEq] at hc
      subst hc
      obtain ⟨l, ls, h1, h2⟩ := splitNl_cons_of_ne a [] hnl
      have h0 : splitNl ([] : List Char) = [[]] := rfl
      rw [h0] at h1
      injection h1 with e1 e2
      subst e1; subst e2
      rw [h2]
      exact ⟨[a], rfl, rfl⟩
    | cons b bs =>
      have hc2 : (b :: bs).getLast? = some c := by
        rwa [List.getLast?_cons_cons] at hc
      obtain ⟨l, hl1, hl2⟩ := ih hc2
      by_cases ha : a = '\n'
      · subst ha
        rw [splitNl_nl_cons]
        exact ⟨l, by rw [getLast?_cons_ne_nil _ _ (splitNl_ne_nil _)]; exact hl1, hl2⟩
      · obtain ⟨l0, ls0, h1, h2⟩ := splitNl_cons_of_ne a (b :: bs) ha
        rw [h2]
        rw [h1] at hl1
        cases ls0 with
        | nil =>
          have he : l0 = l := by simpa using hl1
          rw [← he] at hl2
          refine ⟨a :: l0, by simp, ?_⟩
          have hlne : l0 ≠ [] := by
            intro hnil
            rw [hnil] at hl2
            simp at hl2
          rw [getLast?_cons_ne_nil a l0 hlne]
          exact hl2
        | cons z zs =>
          refine ⟨l, ?_, hl2⟩
          rw [getLast?_cons_ne_nil _ _ (by simp)]
          rw [getLast?_cons_ne_nil _ _ (by simp)] at hl1
          exact hl1

/-! ### Unfolding of normalize_indent -/

theorem normalize_indent_spec (code cl : List Char) :
    normalize_indent code cl =
      if indentPos cl < cl.length then
        if cl.getD (indentPos cl) ' ' = '{' then
          some ((indent (strip (dedent code)) (List.replicate (indentPos cl) ' ')).drop
            (indentPos cl))
        else some (strip (dedent code))
      else none := rfl

/-! ### Claim theorems -/

/-- C5: whenever the character of the caller's line at the computed indentation
position is not an opening brace, `normalize_indent` returns exactly
`textwrap.dedent(code).strip()`; the caller's indentation level has no effect
on the output in this branch. -/
theorem C5_nonbrace_returns_dedent_strip (code cl : List Char)
    (h : indentPos cl < cl.length)
    (hb : ¬ cl.getD (indentPos cl) ' ' = '{') :
    normalize_indent code cl = some (strip (dedent code)) := by
  rw [normalize_indent_spec, if_pos h, if_neg hb]

theorem C5_witness :
    normalize_indent "  a".data "x = f()".data = some (strip (dedent "  a".data)) :=
  C5_nonbrace_returns_dedent_strip "  a".data "x = f()".data (by decide) (by decide)

/-- C8: `normalize_indent` indexes the caller's line without a bounds guard;
if the caller's line has at least one non-whitespace character the index is in
range and the call succeeds, while for a caller line consisting solely of
whitespace characters the index is out of range and the call fails. -/
theorem C8_caller_line_index_guard (code cl : List Char) :
    ((∃ c ∈ cl, isPyWs c = false) →
      indentPos cl < cl.length ∧ (normalize_indent code cl).isSome = true) ∧
    ((∀ c ∈ cl, isPyWs c = true) → normalize_indent code cl = none) := by
  constructor
  · rintro ⟨c, hmem, hws⟩
    have hne : lstrip cl ≠ [] := by
      intro h0
      have := List.dropWhile_eq_nil_iff.mp h0 c hmem
      rw [hws] at this
      exact Bool.false_ne_true this
    have hpos : 0 < (lstrip cl).length := List.length_pos.mpr hne
    have hlen : (lstrip cl).length ≤ cl.length := by
      have hsub : lstrip cl <:+ cl := List.dropWhile_suffix isPyWs
      exact hsub.length_le
    have hlt : indentPos cl < cl.length := by
      unfold indentPos
      omega
    refine ⟨hlt, ?_⟩
    rw [normalize_indent_spec, if_pos hlt]
    by_cases hbr : cl.getD (indentPos cl) ' ' = '{'
    · rw [if_pos hbr]; rfl
    · rw [if_neg hbr]; rfl
  · intro hall
    have hnil : lstrip cl = [] := List.dropWhile_eq_nil_iff.mpr hall
    have hind : indentPos cl = cl.length := by
      unfold indentPos
      rw [hnil]
      simp
    rw [normalize_indent_spec, hind, if_neg (lt_irrefl _)]

theorem C8_witness :
    (normalize_indent [] ['x']).isSome = true ∧ normalize_indent [] [' ', '\t'] = none :=
  ⟨((C8_caller_line_index_guard [] ['x']).1 ⟨'x', by decide, by decide⟩).2,
   (C8_caller_line_index_guard [] [' ', '\t']).2 (by decide)⟩

/-- C9: whenever `normalize_indent` returns a string (in either branch), that
string neither begins nor ends with a whitespace character. -/
theorem C9_output_never_starts_or_ends_with_ws (code cl out : List Char)
    (h : normalize_indent code cl = some out) :
    (∀ c, out.head? = some c → isPyWs c = false) ∧
    (∀ c, out.getLast? = some c → isPyWs c = false) := by
  rw [normalize_indent_spec] at h
  by_cases hlen : indentPos cl < cl.length
  · rw [if_pos hlen] at h
    by_cases hbr : cl.getD (indentPos cl) ' ' = '{'
    · rw [if_pos hbr] at h
      injection h with h
      subst h
      have hh : ∀ c t, strip (dedent code) = c :: t → isPyWs c = false :=
        fun c t hct => strip_head_not_ws (dedent code) c t hct
      cases hsplit : splitNl (strip (dedent code)) with
      | nil => exact absurd hsplit (splitNl_ne_nil _)
      | cons b0 bs =>
        have hout := brace_drop_eq (strip (dedent code)) (indentPos cl) b0 bs hh hsplit
        constructor
        · intro c hc
          rw [hout, joinNl_cons] at hc
          cases b0 with
          | nil =>
            simp only [List.nil_append] at hc
            cases bs with
            | nil => simp [nlJoin] at hc
            | cons y ys =>
              have hn : nlJoin ((y :: ys).map (padLine (indentPos cl))) =
                  '\n' :: joinNl ((y :: ys).map (padLine (indentPos cl))) := rfl
              rw [hn] at hc
              simp only [List.head?_cons, Option.some.injEq] at hc
              have hbase2 : strip (dedent code) = joinNl ([] :: y :: ys) := by
                rw [← hsplit, joinNl_splitNl]
              have hb3 : strip (dedent code) = '\n' :: joinNl (y :: ys) := by
                rw [hbase2]; rfl
              have := hh '\n' _ hb3
              exact absurd this (by decide)
          | cons hb tb =>
            simp only [List.cons_append, List.head?_cons, Option.some.injEq] at hc
            subst hc
            have hbase2 : strip (dedent code) = joinNl ((hb :: tb) :: bs) := by
              rw [← hsplit, joinNl_splitNl]
            rw [joinNl_cons, List.cons_append] at hbase2
            exact hh hb _ hbase2
        · intro c hc
          cases hb0 : (strip (dedent code)).getLast? with
          | none =>
            have hbnil : strip (dedent code) = [] := by
              cases he : strip (dedent code) with
              | nil => rfl
              | cons a as =>
                rw [he] at hb0
                exact absurd hb0 (getLast?_cons_ne_none a as)
            rw [hbnil] at hsplit
            have h0 : splitNl ([] : List Char) = [[]] := rfl
            rw [h0] at hsplit
            injection hsplit with e1 e2
            subst e1; subst e2
            rw [hout] at hc
            simp [joinNl] at hc
          | some c0 =>
            have hws0 : isPyWs c0 = false := strip_getLast_not_ws (dedent code) c0 hb0
            have hc0n : ¬ c0 = '\n' := by
              intro he; rw [he] at hws0; exact absurd hws0 (by decide)
            obtain ⟨ll, hll1, hll2⟩ := splitNl_getLast _ c0 hb0 hc0n
            rw [hsplit] at hll1
            have hllne : ll ≠ [] := by
              intro he; rw [he] at hll2; simp at hll2
            cases bs with
            | nil =>
              simp only [List.getLast?_singleton, Option.some.injEq] at hll1
              rw [hout] at hc
              have hj : joinNl (b0 :: List.map (padLine (indentPos cl)) []) = b0 := rfl
              rw [hj, hll1, hll2] at hc
              injection hc with hc
              subst hc
              exact hws0
            | cons y ys =>
              rw [List.getLast?_cons_cons] at hll1
              rw [hout] at hc
              have hmap : (List.map (padLine (indentPos cl)) (y :: ys)).getLast? =
                  some (padLine (indentPos cl) ll) := by
                rw [List.getLast?_map, hll1]
                rfl
              have hpad_ne : padLine (indentPos cl) ll ≠ [] := by
                unfold padLine
                split
                · exact hllne
                · intro he
                  rcases List.append_eq_nil.mp he with ⟨-, h2⟩
                  exact hllne h2
              have hpad_last : (padLine (indentPos cl) ll).getLast? = some c0 := by
                unfold padLine
                split
                · exact hll2
                · rw [List.getLast?_append_of_ne_nil _ hllne]
                  exact hll2
              have hlast2 : (b0 :: List.map (padLine (indentPos cl)) (y :: ys)).getLast? =
                  some (padLine (indentPos cl) ll) := by
                rw [getLast?_cons_ne_nil _ _ (by simp)]
                exact hmap
              have hjoin := joinNl_getLast? _ _ hlast2 hpad_ne
              rw [hjoin, hpad_last] at hc
              injection hc with hc
              subst hc
              exact hws0
    · rw [if_neg hbr] at h
      injection h with h
      subst h
      constructor
      · intro c hc
        cases he : strip (dedent code) with
        | nil => rw [he] at hc; simp at hc
        | cons a as =>
          rw [he] at hc
          simp only [List.head?_cons, Option.some.injEq] at hc
          subst hc
          exact strip_head_not_ws (dedent code) a as he
      · intro c hc
        exact strip_getLast_not_ws (dedent code) c hc
  · rw [if_neg hlen] at h
    exact absurd h (by simp)

theorem C9_witness :
    normalize_indent "a".data "x".data = some "a".data ∧ isPyWs 'a' = false :=
  ⟨rfl, (C9_output_never_starts_or_ends_with_ws "a".data "x".data "a".data rfl).1 'a' rfl⟩

/-- Dropping `n` characters from the first line only, all other lines kept. -/
def dropFirstLine (n : Nat) (s : List Char) : List Char :=
  match splitNl s with
  | [] => []
  | l :: ls => joinNl (l.drop n :: ls)

theorem indent_splitNl (base : List Char) (n : Nat) :
    splitNl (indent base (List.replicate n ' ')) = (splitNl base).map (padLine n) := by
  rw [indent_replicate_eq]
  apply splitNl_joinNl
  · intro h
    exact splitNl_ne_nil base (List.map_eq_nil_iff.mp h)
  · intro l hl
    obtain ⟨l0, hl0, rfl⟩ := List.mem_map.mp hl
    have hnn := not_nl_mem_splitNl base l0 hl0
    unfold padLine
    split
    · exact hnn
    · intro hmem
      rcases List.mem_append.mp hmem with ha | hb
      · rw [List.mem_replicate] at ha
        exact absurd ha.2 (by decide)
      · exact hnn hb

theorem map_padLine_zero (ls : List (List Char)) : ls.map (padLine 0) = ls := by
  induction ls with
  | nil => rfl
  | cons x xs ih =>
    rw [List.map_cons, ih]
    congr 1
    unfold padLine
    split
    · rfl
    · simp

theorem indent_zero (base : List Char) : indent base (List.replicate 0 ' ') = base := by
  rw [indent_replicate_eq, map_padLine_zero, joinNl_splitNl]

/-- C1 as stated is false on the code: with a caller line of indentation 4
whose character at position 4 is not an opening brace, the returned block
carries no 4-space prefix at all. -/
theorem C1_counterexample :
    normalize_indent "a".data "    x = f()".data = some "a".data ∧
    indentPos "    x = f()".data = 4 ∧
    ¬ ("a".data.take 4 = List.replicate 4 ' ') := by
  refine ⟨by decide, by decide, by decide⟩

/-- C1 amended: the block is always dedented and stripped, but the caller's
indentation N is reapplied only when the caller line's character at position N
is an opening brace; there every non-blank line after the first is prefixed by
exactly N spaces while the first line stays unprefixed, and in the non-brace
branch no line receives any prefix. -/
theorem C1_amended_reindent_only_in_brace_branch (code cl : List Char)
    (b0 : List Char) (bs : List (List Char))
    (h : indentPos cl < cl.length)
    (hsplit : splitNl (strip (dedent code)) = b0 :: bs) :
    ∃ out, normalize_indent code cl = some out ∧
      splitNl out = b0 ::
        (if cl.getD (indentPos cl) ' ' = '{'
         then bs.map (padLine (indentPos cl)) else bs) := by
  rw [normalize_indent_spec, if_pos h]
  by_cases hbr : cl.getD (indentPos cl) ' ' = '{'
  · rw [if_pos hbr, if_pos hbr]
    exact ⟨_, rfl, brace_drop_splitNl _ _ b0 bs
      (fun c t hct => strip_head_not_ws (dedent code) c t hct) hsplit⟩
  · rw [if_neg hbr, if_neg hbr]
    exact ⟨_, rfl, hsplit⟩

theorem C1_witness :
    ∃ out, normalize_indent "a\n  b".data [' ', ' ', '{', 'x'] = some out ∧
      splitNl out = "a".data ::
        (if ([' ', ' ', '{', 'x'] : List Char).getD
            (indentPos [' ', ' ', '{', 'x']) ' ' = '{'
         then ["  b".data].map (padLine (indentPos [' ', ' ', '{', 'x']))
         else ["  b".data]) :=
  C1_amended_reindent_only_in_brace_branch "a\n  b".data [' ', ' ', '{', 'x']
    "a".data ["  b".data] (by decide) (by decide)

/-- C2: in the opening-brace branch, the caller's indentation is applied to
every line of the dedented, stripped block and afterwards that same number of
leading characters is dropped from the first line only. -/
theorem C2_brace_indents_then_drops_first_line (code cl : List Char)
    (h : indentPos cl < cl.length)
    (hb : cl.getD (indentPos cl) ' ' = '{') :
    normalize_indent code cl =
      some (dropFirstLine (indentPos cl)
        (indent (strip (dedent code)) (List.replicate (indentPos cl) ' '))) := by
  rw [normalize_indent_spec, if_pos h, if_pos hb]
  congr 1
  cases hsplit : splitNl (strip (dedent code)) with
  | nil => exact absurd hsplit (splitNl_ne_nil _)
  | cons b0 bs =>
    have hh : ∀ c t, strip (dedent code) = c :: t → isPyWs c = false :=
      fun c t hct => strip_head_not_ws (dedent code) c t hct
    have hd : dropFirstLine (indentPos cl)
        (indent (strip (dedent code)) (List.replicate (indentPos cl) ' ')) =
        joinNl ((padLine (indentPos cl) b0).drop (indentPos cl) ::
          bs.map (padLine (indentPos cl))) := by
      unfold dropFirstLine
      rw [indent_splitNl, hsplit, List.map_cons]
    rw [hd, padLine_drop_head _ (indentPos cl) b0 bs hh hsplit,
      brace_drop_eq _ (indentPos cl) b0 bs hh hsplit]

theorem C2_witness :
    normalize_indent "a\n  b".data [' ', ' ', '{', 'y'] =
      some (dropFirstLine (indentPos [' ', ' ', '{', 'y'])
        (indent (strip (dedent "a\n  b".data))
          (List.replicate (indentPos [' ', ' ', '{', 'y']) ' '))) :=
  C2_brace_indents_then_drops_first_line "a\n  b".data [' ', ' ', '{', 'y']
    (by decide) (by decide)

/-- C3 as stated is false on the code: at caller column 4 neither branch of
`normalize_indent` produces the expected four-space-prefixed first line. -/
theorem C3_counterexample :
    normalize_indent "def f():\n    pass".data [' ', ' ', ' ', ' ', '{', 's', '}'] ≠
      some "    def f():\n        pass".data ∧
    normalize_indent "def f():\n    pass".data "    s = 1".data ≠
      some "    def f():\n        pass".data := by
  refine ⟨by decide, by decide⟩

/-- C3 amended: for the block whose two lines read like a function header and
an indented pass-statement, a brace caller line of indentation 4 yields the
block with the second line indented by four extra spaces but the first line's
reapplied prefix dropped, and a non-brace caller line of indentation 4 yields
the dedented block unchanged. -/
theorem C3_amended_scenario :
    normalize_indent "def f():\n    pass".data [' ', ' ', ' ', ' ', '{', 's', '}'] =
      some "def f():\n        pass".data ∧
    normalize_indent "def f():\n    pass".data "    s = 1".data =
      some "def f():\n    pass".data := by
  refine ⟨by decide, by decide⟩

/-- C4 as stated is false on the code: a text with zero common leading
whitespace and no surrounding blank lines can still be changed, because
`strip` also removes leading whitespace of the first line when other lines
start flush left. -/
theorem C4_counterexample :
    normalize_indent " a\nb".data "x".data = some "a\nb".data ∧
    ¬ (" a\nb".data = "a\nb".data) := by
  refine ⟨by decide, by decide⟩

/-- C4 amended: for a text block that dedenting and stripping both leave
unchanged (zero common leading whitespace and no leading or trailing
whitespace at all), a caller line of indentation 0 that is not entirely
whitespace makes `normalize_indent` return the input itself. -/
theorem C4_amended_roundtrip (code cl : List Char)
    (hd : dedent code = code) (hs : strip code = code)
    (h0 : indentPos cl = 0) (hlen : 0 < cl.length) :
    normalize_indent code cl = some code := by
  have hlt : indentPos cl < cl.length := by rw [h0]; exact hlen
  rw [normalize_indent_spec, if_pos hlt, hd, hs, h0]
  by_cases hbr : cl.getD 0 ' ' = '{'
  · rw [if_pos hbr, indent_zero]
    rfl
  · rw [if_neg hbr]

theorem C4_witness : normalize_indent "a\nb".data "x".data = some "a\nb".data :=
  C4_amended_roundtrip "a\nb".data "x".data (by decide) (by decide) (by decide)
    (by decide)

/-- C6: `get_preamble` resolves the fixed filename `preamble.txt` relative to
the module's own directory, reads that file, and returns its exact contents. -/
theorem C6_get_preamble_reads_fixed_file (fs : FileSystem) (dir : List String)
    (txt : String) (h : fs.read (dir ++ ["preamble.txt"]) = some txt) :
    get_preamble fs dir = Except.ok txt := by
  unfold get_preamble
  rw [h]

theorem C6_witness :
    get_preamble ⟨fun p => if p = ["sourcegen", "preamble.txt"] then some "PRE" else none⟩
      ["sourcegen"] = Except.ok "PRE" :=
  C6_get_preamble_reads_fixed_file _ ["sourcegen"] "PRE" (by decide)

/-- C7: `get_preamble` raises a file-not-found error exactly when the fixed
preamble file is missing, with no retry and no fallback value; on success it
returns the file's contents and no error. -/
theorem C7_error_iff_file_missing (fs : FileSystem) (dir : List String) :
    (get_preamble fs dir = Except.error "FileNotFoundError" ↔
      fs.read (dir ++ ["preamble.txt"]) = none) ∧
    ∀ txt, get_preamble fs dir = Except.ok txt →
      fs.read (dir ++ ["preamble.txt"]) = some txt := by
  cases h : fs.read (dir ++ ["preamble.txt"]) with
  | none => simp [get_preamble, h]
  | some t => simp [get_preamble, h]

theorem C7_witness :
    get_preamble ⟨fun _ => none⟩ [] = Except.error "FileNotFoundError" :=
  ((C7_error_iff_file_missing ⟨fun _ => none⟩ []).1).mpr rfl

/-- C10: both functions are deterministic and share no mutable state: two runs
on equal inputs agree, and `get_preamble` depends only on the content stored
for the fixed preamble path, unaffected by any `normalize_indent` call. -/
theorem C10_deterministic_no_shared_state (code cl : List Char) (fs fs' : FileSystem)
    (dir dir' : List String)
    (hsame : fs.read (dir ++ ["preamble.txt"]) = fs'.read (dir' ++ ["preamble.txt"])) :
    normalize_indent code cl = normalize_indent code cl ∧
    get_preamble fs dir = get_preamble fs' dir' := by
  refine ⟨rfl, ?_⟩
  unfold get_preamble
  rw [hsame]

theorem C10_witness :
    normalize_indent "a".data "x".data = normalize_indent "a".data "x".data ∧
    get_preamble ⟨fun _ => some "P"⟩ ["m"] = get_preamble ⟨fun _ => some "P"⟩ ["n"] :=
  C10_deterministic_no_shared_state "a".data "x".data _ _ ["m"] ["n"] rfl

end Helpers
